import Mathlib

/-
  Verification of the MIO-KITCHEN unpack/repack orchestration engine
  against its natural-language specification.

  All definitions are shallow embeddings of functions in
  `src/tkui/tool.py`; line numbers in the doc comments refer to that file.
-/

namespace MioKitchen

/-! ### Size Estimator (`GetFolderSize`, tool.py 5022-5064)

The Python code accumulates `self.size` as a float: line 5041 adds
`(self.size / 16384) * 256`.  Division by the power of two 16384 and
multiplication by 256 are exact in IEEE double precision for any total
below 2^45 bytes, so the computation is faithfully represented over the
rationals; we embed it in ℚ.
-/

/-- One file entry yielded by the `os.walk` loop (lines 5031-5040): the
length of its name (added when the entry is not a regular file), its byte
size as returned by `os.path.getsize`, and whether `os.path.isfile` holds. -/
structure DirEntry where
  nameLen : ℕ
  byteSize : ℕ
  isFile : Bool

/-- Accumulation of the walk loop, lines 5031-5040 (the exception branch,
which adds 1 for an unreadable entry, is not taken for readable trees):
for every entry add `len(name)` when it is not a regular file, then add
its size. -/
def walkSum (es : List DirEntry) : ℕ :=
  es.foldl (fun acc e => acc + (if e.isFile then 0 else e.nameLen) + e.byteSize) 0

/-- Lines 5041-5043 of `get_dir_size`: add the `size / 16384 * 256`
metadata overhead, then the fixed 16 MiB slack when the running total
exceeds 100 MiB. -/
def getDirSize (es : List DirEntry) : ℚ :=
  let s : ℚ := walkSum es
  let s' := s + s / 16384 * 256
  if s' > 100 * 1024 * 1024 then s' + 16 * 1024 ^ 2 else s'

/-- Quantization core of `rsize` (lines 5053-5061): the 2 MiB floor, the
dead 1 MiB branch, truncation by `int(size)` (equal to the floor, the
value being nonnegative) and alignment up to the next 4096-byte boundary
when `size_ % 4096` is nonzero. -/
def rsizeCore (size : ℚ) : ℤ :=
  if size ≤ 2097152 then 2097152
  else if size ≤ 1048576 then 1048576
  else if ⌊size⌋ % 4096 ≠ 0 then ⌊size⌋ + (4096 - ⌊size⌋ % 4096) else ⌊size⌋

/-- Line 5064, `self.rsize_v = int(self.rsize_v / num)`: the final
division by the divisor `num` (float division then truncation; the
operands are nonnegative, so truncation is the floor). -/
def rsizeV (size : ℚ) (num : ℕ) : ℤ :=
  ⌊(rsizeCore size : ℚ) / (num : ℚ)⌋

/-- `GetFolderSize(dir, num, get=2)`: walk the directory tree, then
quantize (lines 5045-5049). -/
def getFolderSize (es : List DirEntry) (num : ℕ) : ℤ :=
  rsizeV (getDirSize es) num

/-- Quantization as claim C1 words it: a total of at most 2 MiB maps to
exactly 2097152 and any larger total is rounded up to the next 4096-byte
boundary. -/
def quantClaimed (t : ℚ) : ℤ :=
  if t ≤ 2097152 then 2097152 else 4096 * ⌈t / 4096⌉

/-- Quantization as the code performs it: a larger (possibly fractional)
total is first truncated to an integer and only then aligned up to a
4096-byte boundary, so the fractional part of the metadata overhead is
dropped before alignment. -/
def quantAmended (t : ℚ) : ℤ :=
  if t ≤ 2097152 then 2097152 else 4096 * ((⌊t⌋ + 4095) / 4096)

/-! ### Dynamic-partition size-safety check (`PackSuper.verify_size`, tool.py 3488-3507)

The loop works on Python floats (`i - 0.25`, `(1024 ** 3) * i`); all the
values involved are exact integers in IEEE double precision, so the loop
is embedded over ℤ.
-/

/-- Candidate sizes scanned by the loop at lines 3492-3503: `i` runs over
`range(20)`, `i = 0` is skipped (`if not i: continue`), and each remaining
`i` is replaced by `i - 0.25`, giving the byte values `(i - 0.25) * 1024^3`
for `i = 1, ..., 19` — exact integers spaced 1 GiB apart. -/
def superSizeCandidates : List ℤ :=
  (List.range 20).filterMap fun k =>
    if k = 0 then none else some ((k : ℤ) * 1024 ^ 3 - 1024 ^ 3 / 4)

/-- Loop body of `verify_size` (lines 3492-3503), with `content` the byte
sum of the selected images: `t = candidate - content`; a negative `t` is
skipped; a `t` smaller than `diff_size` updates `diff_size` and continues;
otherwise `size` is set to the candidate and the loop breaks.  When the
loop runs out of candidates, `size` keeps its initial value `content`. -/
def verifySizeLoop (content : ℤ) : List ℤ → ℤ → ℤ
  | [], _ => content
  | c :: cs, diff =>
    if c - content < 0 then verifySizeLoop content cs diff
    else if c - content < diff then verifySizeLoop content cs (c - content)
    else c

/-- `PackSuper.verify_size` (lines 3488-3507): `content` is the byte sum
of the selected partitions' images, `req` the requested super size.  It
returns `true` (proceed) when the content fits, else `false` paired with
the adjusted size stored into `super_size`; on `false` the caller
`start_` (lines 3473-3475) shows the adjusted size in a confirmation
dialog and returns without packing. -/
def verifySize (content req : ℤ) : Bool × ℤ :=
  if content > req then (false, verifySizeLoop content superSizeCandidates content)
  else (true, req)

/-- Adjustment as claim C2 words it: grow the requested size iteratively
in quarter-gigabyte (0.25 GiB) steps, capped at 20 steps, until the
selected content fits. -/
def claimedQuarterGrow (content req : ℤ) : Option ℤ :=
  ((List.range 21).map fun k => req + (k : ℤ) * (1024 ^ 3 / 4)).find?
    fun v => decide (content ≤ v)

/-! ### Dynamic-partition synthesizer (`pack_super`, tool.py 3589-3650) -/

/-- Image files visible to `pack_super`, keyed by path relative to the
project work directory (`<p>.img`, `<p>_a.img`, `<p>_b.img`).  The code
spells the work prefix in two ways (`f'{work}/{part}.img'` at line 3615
and `f'{work + part}.img'` at line 3622); since `work` ends with a path
separator these denote the same file once duplicate separators are
collapsed, so the keys here drop the prefix. -/
structure ImgFs where
  present : String → Bool
  size : String → ℕ

/-- Line 3600-3601: strip a trailing `_a` or `_b` from a selected name. -/
def stripSlotSuffix (p : String) : String :=
  if p.endsWith "_b" ∨ p.endsWith "_a" then p.dropRight 2 else p

/-- Lines 3598-3604: canonicalize the selection — strip slot suffixes and
de-duplicate, keeping first-occurrence order. -/
def canonicalParts (ps : List String) : List String :=
  ps.foldl
    (fun acc p =>
      let c := stripSlotSuffix p
      if c ∈ acc then acc else acc ++ [c])
    []

/-- Lines 3605-3610: for each canonical name whose unsuffixed image is
missing while an `_a` image exists, rename the `_a` image to the
canonical name. -/
def renameSlotA (fs0 : ImgFs) (ps : List String) : ImgFs :=
  ps.foldl
    (fun fs p =>
      if fs.present (p ++ ".img") = false ∧ fs.present (p ++ "_a.img") = true then
        { present := fun n =>
            if n = p ++ ".img" then true
            else if n = p ++ "_a.img" then false
            else fs.present n
          size := fun n =>
            if n = p ++ ".img" then fs.size (p ++ "_a.img") else fs.size n }
      else fs)
    fs0

/-- The full command specification `pack_super` assembles for the external
`lpmake` tool, in argv order: `--metadata-size`, `-super-name`,
`-metadata-slots`, `-device`, `--group`, `--partition`/`--image` pairs,
optional `--virtual-ab` and `--sparse`, and `--out`.  A partition entry is
(name, attribute, declared byte size, group); an image entry is
(partition name, backing image file). -/
structure LpmakeCmd where
  metadataSize : ℕ
  superName : String
  metadataSlots : ℕ
  devices : List (String × ℕ)
  groups : List (String × ℕ)
  partitions : List (String × String × ℕ × String)
  images : List (String × String)
  virtualAb : Bool
  sparse : Bool
  out : String
deriving DecidableEq

/-- `pack_super` (lines 3589-3634) up to the `lpmake` invocation.  An
empty `block_device_name` falls back to `'super'` (lines 3592-3593); the
selection is canonicalized and `_a` images renamed (lines 3598-3610).
For `super_type == 1` (`A-only`, lines 3612-3616) the device entry and
the single group carry the requested size and every canonical partition
is declared with `os.path.getsize` of its image.  Otherwise (lines
3617-3632) the device entry is the hardcoded pair `("super", size)`
(line 3618), two groups `<name>_a`/`<name>_b` are emitted, `_b` entries
fall back to a zero-size placeholder when no `_b` image exists, and
`super_type == 2` adds `--virtual-ab`. -/
def packSuperCmd (fs0 : ImgFs) (sparse : Bool) (groupName : String) (size : ℕ)
    (superType : ℕ) (partList0 : List String) (attrib : String)
    (outputDir : String) (blockDeviceName0 : String) : LpmakeCmd :=
  let blockDeviceName := if blockDeviceName0 = "" then "super" else blockDeviceName0
  let partList := canonicalParts partList0
  let fs := renameSlotA fs0 partList
  if superType = 1 then
    { metadataSize := 65536
      superName := blockDeviceName
      metadataSlots := 2
      devices := [(blockDeviceName, size)]
      groups := [(groupName, size)]
      partitions := partList.map fun p => (p, attrib, fs.size (p ++ ".img"), groupName)
      images := partList.map fun p => (p, p ++ ".img")
      virtualAb := false
      sparse := sparse
      out := outputDir ++ "/super.img" }
  else
    { metadataSize := 65536
      superName := blockDeviceName
      metadataSlots := 3
      devices := [("super", size)]
      groups := [(groupName ++ "_a", size), (groupName ++ "_b", size)]
      partitions :=
        (partList.map fun p => (p ++ "_a", attrib, fs.size (p ++ ".img"), groupName ++ "_a")) ++
        (partList.map fun p =>
          if fs.present (p ++ "_b.img") = false then
            (p ++ "_b", attrib, 0, groupName ++ "_b")
          else
            (p ++ "_b", attrib, fs.size (p ++ "_b.img"), groupName ++ "_b"))
      images :=
        (partList.map fun p => (p ++ "_a", p ++ ".img")) ++
        (partList.filterMap fun p =>
          if fs.present (p ++ "_b.img") = false then none
          else some (p ++ "_b", p ++ "_b.img"))
      virtualAb := superType == 2
      sparse := sparse
      out := outputDir ++ "/super.img" }

/-! ### Transfer-list replay, `dat -> raw` (tool.py 4787-4803 and 6001-6021) -/

/-- Per-partition sidecar state for the `dat -> raw` steps: the size of
`<name>.new.dat` (`none` when absent), whether `<name>.transfer.list`
exists, the size of `<name>.patch.dat` (`none` when absent), and whether
`<name>.img` exists. -/
structure DatState where
  newDatSize : Option ℕ
  transferList : Bool
  patchDatSize : Option ℕ
  imgExists : Bool
deriving DecidableEq

/-- Lines 4787-4803 of `unpack` (the loose-partition dat step).  `sdatOk`
abstracts whether the external `Sdat2img` replay produced `<name>.img`
(checked by `os.access` at line 4793).  On success the consumed
`.new.dat`, the transfer list and the optional `.patch.dat` are all
removed (removing a missing `.patch.dat` raises and is swallowed, lines
4796-4799); when the replay left no image the state is unchanged (line
4801).  With the transfer list absent the step prints the
missing-sidecar message (line 4803) and changes nothing; the second
component records that report. -/
def unpackDatStep (sdatOk : Bool) (s : DatState) : DatState × Bool :=
  match s.newDatSize with
  | none => (s, false)
  | some n =>
    if n ≠ 0 then
      if s.transferList then
        if s.imgExists ∨ sdatOk = true then
          ({ newDatSize := none, transferList := false, patchDatSize := none,
             imgExists := true }, false)
        else (s, false)
      else (s, true)
    else (s, false)

/-- Lines 6001-6021 of `FormatConversion.conversion` for source `dat` and
target `raw`.  The replay requires both the transfer list and a
non-empty `.new.dat` (line 6010).  On success the consumed `.new.dat`
and the transfer list are removed, but the optional `.patch.dat` is
removed only when it is zero-length: line 6016 guards the removal with
`if not os.path.getsize(...)`, and for a missing `.patch.dat` that call
raises after the first two removals and is swallowed (lines 6013-6019).
Otherwise the missing-sidecar message is printed (line 6021) and nothing
changes.  The `none` branch for `.new.dat` is unreachable: the selection
only lists existing `.new.dat` files. -/
def conversionDatToRawStep (sdatOk : Bool) (s : DatState) : DatState × Bool :=
  match s.newDatSize with
  | none => (s, false)
  | some n =>
    if s.transferList ∧ n ≠ 0 then
      if s.imgExists ∨ sdatOk = true then
        ({ newDatSize := none, transferList := false,
           patchDatSize := if s.patchDatSize = some 0 then none else s.patchDatSize,
           imgExists := true }, false)
      else (s, false)
    else (s, true)

/-! ### Compressed-transfer pipeline: conversions targeting `dat`
(tool.py 6024-6034, `datbr` 5086-5117, `img2simg` helper 5883-5890) -/

/-- External operations the conversion dispatch performs, in order. -/
inductive ConvOp
  | img2simg (path : String)
  | simg2img (path : String)
  | brotliDec (path : String)
  | unxz (path : String)
  | img2sdat (name : String)
deriving DecidableEq

/-- Base name of a selected file as the code computes it,
`os.path.basename(i).split('.')[0]` (selection entries carry no
directory part, so `basename` is the identity). -/
def baseName (i : String) : String := i.takeWhile (fun c => c ≠ '.')

/-- The `f_get == 'dat'` arm of `FormatConversion.conversion` (lines
6024-6034) — every conversion whose target format is `dat` — for one
selected item `i`, with `hget` the source format: a `raw` source is
first converted in place by the `img2simg` helper (line 6026, which runs
the external `img2simg` codec on `work/i`); a `raw` or `sparse` source
is then fed to `datbr(work, basename, "dat")` (line 6028), which runs
`utils.img2sdat` on `<basename>.img` (line 5100) to produce
`<basename>.new.dat`; `br`/`xz` sources are only decompressed. -/
def conversionToDatOps (hget : String) (i : String) : List ConvOp :=
  (if hget = "raw" then [ConvOp.img2simg i] else []) ++
  (if hget = "raw" ∨ hget = "sparse" then [ConvOp.img2sdat (baseName i)] else []) ++
  (if hget = "br" then [ConvOp.brotliDec i] else []) ++
  (if hget = "xz" then [ConvOp.unxz i] else [])

/-- Modelled from the spec: the effect of the in-place sparse codec on
the image's format.  The repository's `img2simg` helper (lines
5883-5890) and `utils.simg2img` invoke the external Android sparse
codec, which is not part of this repository; its direction is fixed by
the spec (glossary: a sparse image requires "conversion to raw before
most tools can operate on it", and the helper named `img2simg` encodes
while `simg2img` decodes): `img2simg` turns a raw image sparse and
`simg2img` turns a sparse image raw.  No other operation changes the
image's format. -/
def applyOp (fmt : String) (op : ConvOp) : String :=
  match op with
  | .img2simg _ => "sparse"
  | .simg2img _ => "raw"
  | _ => fmt

/-- Format of the partition image at the moment `img2sdat` consumes it:
fold the operations preceding the first `img2sdat` over the starting
format (`none` when the trace never runs `img2sdat`). -/
def formatAtImg2sdat (fmt0 : String) : List ConvOp → Option String
  | [] => none
  | op :: ops =>
    match op with
    | .img2sdat _ => some fmt0
    | _ => formatAtImg2sdat (applyOp fmt0 op) ops

/-! ### A/B normalization after a super unpack (tool.py 4743-4764) -/

/-- Python `suf in`-style suffix test, `str.endswith`, over the character
lists of the two strings. -/
def charsSuffixOf (suf s : String) : Bool := suf.data.isSuffixOf s.data

/-- Scanner for Python `s.replace(pat, '')`: remove every leftmost
non-overlapping occurrence of `pat`.  The fuel argument (instantiated
with the string length) only serves structural termination; every
recursive call shortens the list. -/
def removeAllAux (pat : List Char) : ℕ → List Char → List Char
  | 0, l => l
  | _ + 1, [] => []
  | fuel + 1, c :: rest =>
    if pat.isPrefixOf (c :: rest) then removeAllAux pat fuel ((c :: rest).drop pat.length)
    else c :: removeAllAux pat fuel rest

/-- Python `s.replace(pat, '')`. -/
def strRemoveAll (s pat : String) : String :=
  String.mk (removeAllAux pat.data s.data.length s.data)

/-- One iteration of the rename/delete pass at lines 4756-4761 of the
`form == 'super'` branch of `unpack`, for one file name of the
`os.listdir` snapshot.  A file ending in `_a.img` is renamed to
`file_name.replace('_a', '')` (every occurrence of the substring `_a`
removed — the suffix drop for ordinary names) whenever no file of the
resulting name exists; the existence of a `_b` counterpart is not
consulted.  A file ending in `_b.img` whose size is zero is removed.
The filesystem is a map from file name to size (`none` = absent). -/
def superNormStep (fs : String → Option ℕ) (name : String) : String → Option ℕ :=
  let target := strRemoveAll name "_a"
  let fs1 :=
    if charsSuffixOf "_a.img" name = true ∧ fs target = none then
      fun n => if n = target then fs name else if n = name then none else fs n
    else fs
  if charsSuffixOf "_b.img" name = true ∧ fs1 name = some 0 then
    fun n => if n = name then none else fs1 n
  else fs1

/-- The whole pass: fold the step over the directory-listing snapshot. -/
def superNormalize (snapshot : List String) (fs : String → Option ℕ) :
    String → Option ℕ :=
  snapshot.foldl superNormStep fs

/-- The `_b` counterpart of a file named `<p>_a.img`, as claim C6 refers
to it: `<p>_b.img`. -/
def bCounterpart (name : String) : String :=
  String.mk (name.data.take (name.data.length - 6) ++ "_b.img".data)

/-- The pass as claim C6 words it: the `_a` file is renamed only when
neither the unsuffixed name nor the `_b` counterpart exists. -/
def claimNormStep (fs : String → Option ℕ) (name : String) : String → Option ℕ :=
  let target := strRemoveAll name "_a"
  let fs1 :=
    if charsSuffixOf "_a.img" name = true ∧ fs target = none ∧
        fs (bCounterpart name) = none then
      fun n => if n = target then fs name else if n = name then none else fs n
    else fs
  if charsSuffixOf "_b.img" name = true ∧ fs1 name = some 0 then
    fun n => if n = name then none else fs1 n
  else fs1

/-- The claim-side pass folded over the snapshot. -/
def claimNormalize (snapshot : List String) (fs : String → Option ℕ) :
    String → Option ℕ :=
  snapshot.foldl claimNormStep fs

/-- Whether the two-character pattern `p q` occurs as an adjacent pair of
the list.  `containsPair '_' 'a' stem.data = false` says the partition
stem contains no `_a`, so `file_name.replace('_a', '')` on
`<stem>_a.img` removes exactly the slot suffix. -/
def containsPair (p q : Char) : List Char → Bool
  | c :: d :: rest => ((p == c) && (q == d)) || containsPair p q (d :: rest)
  | _ => false

/-- Example filesystem of the C6 scenario: a 5-byte `system_a.img` next
to a 7-byte `system_b.img`, nothing else. -/
def slotPairFs : String → Option ℕ := fun n =>
  if n = "system_a.img" then some 5 else if n = "system_b.img" then some 7 else none

/-! ### Multi-part transfer reassembly (tool.py 4779-4786) -/

/-- State of the reassembly for one partition `<name>`: the content of
`<name>.new.dat` (`none` when absent; the code opens it in append mode,
which creates it empty) and the content of each numbered segment
`<name>.new.dat.<n>`, as byte lists. -/
structure SegFs where
  newDat : Option (List ℕ)
  seg : ℕ → Option (List ℕ)

/-- Concatenation of the present segments in list order. -/
def segConcat (segs : ℕ → Option (List ℕ)) : List ℕ → List ℕ
  | [] => []
  | n :: ns => (segs n).getD [] ++ segConcat segs ns

/-- The `for n in range(100)` loop at lines 4781-4786: for each index in
order, when the segment exists, append its bytes to the accumulator and
remove the segment file. -/
def reassembleLoop : List ℕ → (ℕ → Option (List ℕ)) → List ℕ →
    List ℕ × (ℕ → Option (List ℕ))
  | [], segs, acc => (acc, segs)
  | n :: ns, segs, acc =>
    match segs n with
    | some c => reassembleLoop ns (Function.update segs n none) (acc ++ c)
    | none => reassembleLoop ns segs acc

/-- Lines 4779-4786 of `unpack`: reassembly runs only when
`<name>.new.dat.1` exists; it opens `<name>.new.dat` in append mode and
runs the loop over `range(100)`. -/
def reassemble (s : SegFs) : SegFs :=
  if (s.seg 1).isSome then
    let r := reassembleLoop (List.range 100) s.seg (s.newDat.getD [])
    { newDat := some r.1, seg := r.2 }
  else s

/-! ### Multi-partition unpack batch (tool.py 4768-4903)

The loose-partition arm of `unpack` iterates `for i in chose` over the
selection.  The model below keeps the control-flow skeleton that decides
claim C7: the `.zst` branch (lines 4769-4772), the registry update for a
classified raw image (lines 4804-4833), and the `erofs`/`f2fs`
extraction with its exit-status check (lines 4874-4895).  The
intermediate transform steps (`.xz`/`.br` decompression, multipart
reassembly, dat replay) are modelled separately by `unpackDatStep` and
`reassemble`, and the type-specific codecs that do not consult an exit
status (dtbo, boot, logo, vbmeta, ext, romfs) as well as the
nested-super recursion (lines 4835-4852) are abstracted into the plain
record-and-continue path.
-/

/-- Per-partition situation.  `hasZst`: a `<i>.zst` sidecar exists (line
4769).  `zstdExit`: the exit status of `call(['zstd', '--rm', '-d', ...])`
— line 4771 discards it, so no field of the behaviour depends on it.
`hasImg`: a flat `<i>.img` exists when line 4804 checks.  `ftype`: the
Format Classifier result for that image after the sparse normalization
of lines 4825-4831 (assumed neither `"sparse"` nor `"super"` here).
`extractExit`: exit status of the external `erofs`/`f2fs` extractor.
`dirCreated`: whether extraction produced the output directory (checked
before the source image is deleted, lines 4881-4895). -/
structure PartEnv where
  hasZst : Bool
  zstdExit : ℤ
  hasImg : Bool
  ftype : String
  extractExit : ℤ
  dirCreated : Bool

/-- Observable outcome of a batch: the partition registry (`parts`), the
partitions reported as failed (`print('Unpack failed...')`), the
partitions the loop body ran for, and the partitions whose source image
was deleted after successful extraction. -/
structure BatchResult where
  registry : List (String × String)
  reported : List String
  processed : List String
  removedImgs : List String
deriving DecidableEq

/-- The loop body for one partition that carries no `.zst` sidecar:
`parts.pop(i); parts[i] = gettype(...)` when an image exists (lines
4804-4833, modelled as remove-then-append), then for `erofs`/`f2fs`
images the external extraction — a non-zero exit prints the failure and
skips the deletion step (`continue`, lines 4874-4895), a zero exit with
the output directory present deletes the source image. -/
def unpackStep (env : String → PartEnv) (i : String) (r : BatchResult) : BatchResult :=
  let e := env i
  let reg :=
    if e.hasImg = true then (r.registry.filter fun kv => kv.1 ≠ i) ++ [(i, e.ftype)]
    else r.registry
  if (e.ftype = "erofs" ∨ e.ftype = "f2fs") ∧ e.hasImg = true then
    if e.extractExit ≠ 0 then
      { registry := reg, reported := r.reported ++ [i],
        processed := r.processed ++ [i], removedImgs := r.removedImgs }
    else if e.dirCreated = true then
      { registry := reg, reported := r.reported,
        processed := r.processed ++ [i], removedImgs := r.removedImgs ++ [i] }
    else
      { registry := reg, reported := r.reported,
        processed := r.processed ++ [i], removedImgs := r.removedImgs }
  else
    { registry := reg, reported := r.reported,
      processed := r.processed ++ [i], removedImgs := r.removedImgs }

/-- The `for i in chose` loop: a partition with a `.zst` sidecar runs
`zstd` and then `return True` immediately — whatever the tool's exit
status, the remaining selection is never visited (lines 4769-4772);
otherwise the body runs and the loop continues. -/
def unpackBatch (env : String → PartEnv) : List String → BatchResult → BatchResult
  | [], r => r
  | i :: rest, r =>
    if (env i).hasZst = true then { r with processed := r.processed ++ [i] }
    else unpackBatch env rest (unpackStep env i r)

/-- C7, counterexample environment: three selected partitions; the
middle one carries a `.zst` sidecar and its `zstd` invocation exits with
status 1 (which line 4771 discards); the other two are plain ext images
whose processing succeeds. -/
def envZstMid : String → PartEnv := fun i =>
  if i = "p2" then ⟨true, 1, false, "ext", 0, false⟩
  else ⟨false, 0, true, "ext", 0, true⟩

/-- Witness environment for `unpackBatch_amended`: three partitions
without `.zst` sidecars; the middle one is an erofs image whose
extractor exits with status 1. -/
def envMidFail : String → PartEnv := fun i =>
  if i = "q2" then ⟨false, 0, true, "erofs", 1, false⟩
  else ⟨false, 0, true, "ext", 0, true⟩

/-! ### Patch-resize-list mode (`GetFolderSize.rsizelist`, tool.py 5066-5082)

`rsizelist` reads the whole file and applies four `re.sub` calls, each
with a pattern of the shape `<literal prefix>\d+` and the replacement
`<same literal prefix><new size>`.  The content is modelled as a list of
characters and each `re.sub` as a left-to-right scanner with exactly
`re.sub`'s leftmost, non-overlapping, greedy semantics for such
patterns.  (`\d` is modelled as `Char.isDigit`; the resize lists the
tool reads and writes carry only ASCII digits.  The partition name is
interpolated into the regex verbatim; partition names carry no regex
metacharacters, so the interpolated part of the pattern matches
literally, as modelled.)
-/

/-- Whether a list of characters starts with a digit (the `\d+` part of
the pattern requires at least one digit right after the prefix). -/
def headIsDigit : List Char → Bool
  | [] => false
  | c :: _ => c.isDigit

/-- One `re.sub(prefix + r"\d+", prefix + repl, content)` call, prefix
`p :: ps`, replacement digits `R`: at each position, when the literal
prefix matches and a digit follows, emit the prefix and `R`, skip the
greedy digit run, and continue after it; otherwise keep the character.
The fuel (instantiated with the content length by `reSubNum`) only
serves structural termination: every recursive call shortens the list. -/
def reSubNumAux (p : Char) (ps R : List Char) : ℕ → List Char → List Char
  | 0, l => l
  | _ + 1, [] => []
  | fuel + 1, c :: rest =>
    if (p :: ps).isPrefixOf (c :: rest) && headIsDigit (rest.drop ps.length) then
      p :: ps ++ R ++ reSubNumAux p ps R fuel ((rest.drop ps.length).dropWhile Char.isDigit)
    else c :: reSubNumAux p ps R fuel rest

/-- The substitution on a whole content. -/
def reSubNum (p : Char) (ps R l : List Char) : List Char :=
  reSubNumAux p ps R l.length l

/-- Whether the pattern `(p :: ps) ++ \d+` occurs anywhere in `l` — the
condition under which `re.sub` changes anything. -/
def hasNumMatch (p : Char) (ps : List Char) : List Char → Bool
  | [] => false
  | c :: rest =>
    ((p :: ps).isPrefixOf (c :: rest) && headIsDigit (rest.drop ps.length)) ||
      hasNumMatch p ps rest

/-- Decimal digits of the new size, Python `str(size)`. -/
def sizeDigits (size : ℕ) : List Char := (toString size).data

/-- `GetFolderSize.rsizelist(part_name, size, file)` (lines 5066-5082),
on the file's content: the four `re.sub` calls in source order —
`resize <part> \d+`, `resize <part>_a \d+`,
`# Grow partition <part> from 0 to \d+`, and
`# Grow partition <part>_a from 0 to \d+`, each rewriting the digit run
to the new size. -/
def rsizelist (part : String) (size : ℕ) (content : List Char) : List Char :=
  let R := sizeDigits size
  let c1 := reSubNum 'r' ("esize " ++ part ++ " ").data R content
  let c2 := reSubNum 'r' ("esize " ++ part ++ "_a ").data R c1
  let c3 := reSubNum '#' (" Grow partition " ++ part ++ " from 0 to ").data R c2
  reSubNum '#' (" Grow partition " ++ part ++ "_a from 0 to ").data R c3

/-! ### Theorems -/

/-- C1, counterexample: a directory holding one regular file of 2068922
bytes.  The running total is 2068922 * 65 / 64 = 2101248.90625; the code
truncates to 2101248, which is already 4096-aligned and is returned
unchanged, while rounding the total up to the next 4096-byte boundary, as
the claim states, would give 2105344. -/
theorem getFolderSize_quantClaimed_counterexample :
    getFolderSize [⟨4, 2068922, true⟩] 1 = 2101248 ∧
    quantClaimed (getDirSize [⟨4, 2068922, true⟩]) = 2105344 ∧
    getFolderSize [⟨4, 2068922, true⟩] 1 ≠
      quantClaimed (getDirSize [⟨4, 2068922, true⟩]) := by
  have h1 : getDirSize [⟨4, 2068922, true⟩] = 2101248 + 29/32 := by
    norm_num [getDirSize, walkSum]
  have h2 : getFolderSize [⟨4, 2068922, true⟩] 1 = 2101248 := by
    rw [getFolderSize, rsizeV, rsizeCore, h1]
    norm_num
  have h3 : quantClaimed (getDirSize [⟨4, 2068922, true⟩]) = 2105344 := by
    rw [quantClaimed, h1]
    norm_num
    have hc : ⌈(67239965 : ℚ) / 131072⌉ = (514 : ℤ) := by
      rw [Int.ceil_eq_iff]
      norm_num
    rw [hc]
    norm_num
  exact ⟨h2, h3, by rw [h2, h3]; decide⟩

/-- C1, amended: the Size Estimator with divisor 1 returns the running
total (recursive content sum, plus the `size/16384*256` overhead, plus
the 16 MiB slack past 100 MiB) quantized by: totals of at most 2 MiB map
to exactly 2097152 (the 1 MiB branch being dead), and larger totals are
truncated to an integer and then rounded up to the next 4096-byte
boundary; in particular a directory totalling 1,500,000 bytes of content
yields exactly 2,097,152. -/
theorem getFolderSize_eq_quantAmended :
    (∀ es : List DirEntry, getFolderSize es 1 = quantAmended (getDirSize es)) ∧
    getFolderSize [⟨4, 1500000, true⟩] 1 = 2097152 := by
  constructor
  · intro es
    unfold getFolderSize rsizeV rsizeCore quantAmended
    have hnum : ((1 : ℕ) : ℚ) = 1 := by norm_num
    rw [hnum, div_one, Int.floor_intCast]
    set t := getDirSize es with ht
    by_cases h2 : t ≤ 2097152
    · simp [h2]
    · have h1 : ¬ t ≤ 1048576 := by
        intro h
        exact h2 (h.trans (by norm_num))
      simp only [if_neg h2, if_neg h1]
      set s := ⌊t⌋ with hs
      by_cases hz : s % 4096 ≠ 0
      · simp only [if_pos hz]
        omega
      · simp only [if_neg hz]
        omega
  · have h1 : getDirSize [⟨4, 1500000, true⟩] = 1523437 + 1/2 := by
      norm_num [getDirSize, walkSum]
    rw [getFolderSize, rsizeV, rsizeCore, h1]
    norm_num

/-- C2, counterexample: selected content of 150 MiB against a requested
100 MiB super.  Growing in 0.25 GiB steps from the request would stop at
104857600 + 268435456 = 373293056, but the code picks the first fitting
member of `superSizeCandidates` and stores 805306368 (0.75 GiB), which is
not reachable from the request by quarter-gigabyte steps at all. -/
theorem verifySize_quarterStep_counterexample :
    verifySize 157286400 104857600 = (false, 805306368) ∧
    claimedQuarterGrow 157286400 104857600 = some 373293056 ∧
    (∀ k : ℕ, k ≤ 20 → (104857600 : ℤ) + k * (1024 ^ 3 / 4) ≠ 805306368) := by
  refine ⟨by decide, by decide, ?_⟩
  intro k hk
  interval_cases k <;> decide

/-- C2, amended: when the selected content exceeds the requested super
size, the requested total is replaced by an adjusted size drawn from the
19 loop candidates `(i - 0.25) GiB, i = 1..19` (spaced 1 GiB apart, not
0.25 GiB) or left at the content total itself when no candidate is
chosen; the adjusted size is always at least the selected content's
total, and the operation stops to ask the user to confirm it rather than
proceeding silently. -/
theorem verifySize_adjusted (content req : ℤ) (h : content > req) :
    (verifySize content req).1 = false ∧
    content ≤ (verifySize content req).2 ∧
    ((verifySize content req).2 = content ∨
      (verifySize content req).2 ∈ superSizeCandidates) := by
  have key : ∀ (cs : List ℤ) (diff : ℤ),
      verifySizeLoop content cs diff = content ∨
        (verifySizeLoop content cs diff ∈ cs ∧
          content ≤ verifySizeLoop content cs diff) := by
    intro cs
    induction cs with
    | nil => intro diff; left; rfl
    | cons c cs ih =>
      intro diff
      simp only [verifySizeLoop]
      split
      · rcases ih diff with h1 | ⟨h1, h2⟩
        · left; exact h1
        · right; exact ⟨List.mem_cons_of_mem _ h1, h2⟩
      · split
        · rcases ih (c - content) with h1 | ⟨h1, h2⟩
          · left; exact h1
          · right; exact ⟨List.mem_cons_of_mem _ h1, h2⟩
        · right
          refine ⟨List.mem_cons_self _ _, ?_⟩
          omega
  unfold verifySize
  rw [if_pos h]
  rcases key superSizeCandidates content with h1 | ⟨h1, h2⟩
  · exact ⟨rfl, by rw [h1], Or.inl h1⟩
  · exact ⟨rfl, h2, Or.inr h1⟩

/-- Witness for `verifySize_adjusted` at the concrete input of the
counterexample: content 150 MiB, request 100 MiB. -/
theorem verifySize_adjusted_witness :
    (verifySize 157286400 104857600).1 = false ∧
    (157286400 : ℤ) ≤ (verifySize 157286400 104857600).2 ∧
    ((verifySize 157286400 104857600).2 = 157286400 ∨
      (verifySize 157286400 104857600).2 ∈ superSizeCandidates) :=
  verifySize_adjusted 157286400 104857600 (by decide)

/-- C3: for slot mode `A-only` (`super_type == 1`) the synthesizer emits
exactly one device entry of the requested total size under the given
block-device name, one group of the requested total size under the given
group name, and one partition entry per canonical (suffix-stripped,
de-duplicated) name whose declared size is the byte length of that
partition's image file (after the `_a` rename pass), with the metadata
size fixed at 65536 bytes. -/
theorem packSuper_aOnly_layout (fs0 : ImgFs) (sp : Bool) (gn : String)
    (size : ℕ) (ps : List String) (attrib od bdn : String) (hbdn : bdn ≠ "") :
    (packSuperCmd fs0 sp gn size 1 ps attrib od bdn).devices = [(bdn, size)] ∧
    (packSuperCmd fs0 sp gn size 1 ps attrib od bdn).groups = [(gn, size)] ∧
    (packSuperCmd fs0 sp gn size 1 ps attrib od bdn).partitions =
      (canonicalParts ps).map (fun p =>
        (p, attrib, (renameSlotA fs0 (canonicalParts ps)).size (p ++ ".img"), gn)) ∧
    (packSuperCmd fs0 sp gn size 1 ps attrib od bdn).metadataSize = 65536 := by
  unfold packSuperCmd
  simp [hbdn]

/-- Witness for `packSuper_aOnly_layout`: the scenario of the spec's
testable property — partitions `boot` (10 MiB) and `system` (500 MiB),
group size 600 MiB. -/
theorem packSuper_aOnly_layout_witness :
    (packSuperCmd
        ⟨fun n => n = "boot.img" ∨ n = "system.img",
         fun n => if n = "boot.img" then 10485760 else if n = "system.img" then 524288000 else 0⟩
        false "qti_dynamic_partitions" 629145600 1 ["boot", "system"] "readonly" "out" "super").devices
      = [("super", 629145600)] ∧
    (packSuperCmd
        ⟨fun n => n = "boot.img" ∨ n = "system.img",
         fun n => if n = "boot.img" then 10485760 else if n = "system.img" then 524288000 else 0⟩
        false "qti_dynamic_partitions" 629145600 1 ["boot", "system"] "readonly" "out" "super").groups
      = [("qti_dynamic_partitions", 629145600)] ∧
    (packSuperCmd
        ⟨fun n => n = "boot.img" ∨ n = "system.img",
         fun n => if n = "boot.img" then 10485760 else if n = "system.img" then 524288000 else 0⟩
        false "qti_dynamic_partitions" 629145600 1 ["boot", "system"] "readonly" "out" "super").partitions
      = (canonicalParts ["boot", "system"]).map (fun p =>
          (p, "readonly",
           (renameSlotA
              ⟨fun n => n = "boot.img" ∨ n = "system.img",
               fun n => if n = "boot.img" then 10485760 else if n = "system.img" then 524288000 else 0⟩
              (canonicalParts ["boot", "system"])).size (p ++ ".img"),
           "qti_dynamic_partitions")) ∧
    (packSuperCmd
        ⟨fun n => n = "boot.img" ∨ n = "system.img",
         fun n => if n = "boot.img" then 10485760 else if n = "system.img" then 524288000 else 0⟩
        false "qti_dynamic_partitions" 629145600 1 ["boot", "system"] "readonly" "out" "super").metadataSize
      = 65536 :=
  packSuper_aOnly_layout _ false "qti_dynamic_partitions" 629145600
    ["boot", "system"] "readonly" "out" "super" (by decide)

/-- C10: in slot modes `Virtual-AB` (`super_type == 2`) and `A/B`
(`super_type == 3`) the synthesizer always emits the block-device table
entry with the hardcoded name `super` paired with the requested total
size, and the `blockDeviceName` argument influences nothing but the
`-super-name` field: two invocations differing only in `blockDeviceName`
produce commands equal up to that field. -/
theorem packSuper_slotted_device_hardcoded (fs0 : ImgFs) (sp : Bool)
    (gn : String) (size : ℕ) (st : ℕ) (ps : List String)
    (attrib od bdn bdn' : String) (hst : st = 2 ∨ st = 3) :
    (packSuperCmd fs0 sp gn size st ps attrib od bdn).devices = [("super", size)] ∧
    (packSuperCmd fs0 sp gn size st ps attrib od bdn).superName =
      (if bdn = "" then "super" else bdn) ∧
    packSuperCmd fs0 sp gn size st ps attrib od bdn' =
      { packSuperCmd fs0 sp gn size st ps attrib od bdn with
          superName := if bdn' = "" then "super" else bdn' } := by
  have h1 : st ≠ 1 := by rcases hst with h | h <;> omega
  unfold packSuperCmd
  simp [h1]

/-- Witness for `packSuper_slotted_device_hardcoded` in `Virtual-AB` mode
with two distinct block-device names. -/
theorem packSuper_slotted_device_hardcoded_witness :
    (packSuperCmd ⟨fun _ => false, fun _ => 0⟩ false "main" 9126805504 2
        ["system"] "readonly" "out" "vendor_super").devices = [("super", 9126805504)] ∧
    (packSuperCmd ⟨fun _ => false, fun _ => 0⟩ false "main" 9126805504 2
        ["system"] "readonly" "out" "vendor_super").superName =
      (if "vendor_super" = "" then "super" else "vendor_super") ∧
    packSuperCmd ⟨fun _ => false, fun _ => 0⟩ false "main" 9126805504 2
        ["system"] "readonly" "out" "other_name" =
      { packSuperCmd ⟨fun _ => false, fun _ => 0⟩ false "main" 9126805504 2
          ["system"] "readonly" "out" "vendor_super" with
          superName := if "other_name" = "" then "super" else "other_name" } :=
  packSuper_slotted_device_hardcoded _ false "main" 9126805504 2 ["system"]
    "readonly" "out" "vendor_super" "other_name" (Or.inl rfl)

/-- C4, counterexample: a non-empty `system.patch.dat` (7 bytes) next to
`system.new.dat` (5 bytes) and `system.transfer.list`.  The format
conversion `dat -> raw` replays and removes the `.new.dat` and the
transfer list but keeps the non-empty `.patch.dat`, contradicting the
claim that the conversion deletes the optional `.patch.dat`; the unpack
path does delete it. -/
theorem conversionDat_patchKept_counterexample :
    (conversionDatToRawStep true ⟨some 5, true, some 7, false⟩).1.patchDatSize = some 7 ∧
    (conversionDatToRawStep true ⟨some 5, true, some 7, false⟩).1.newDatSize = none ∧
    (conversionDatToRawStep true ⟨some 5, true, some 7, false⟩).1.transferList = false ∧
    (unpackDatStep true ⟨some 5, true, some 7, false⟩).1.patchDatSize = none := by
  decide

/-- C4, amended: converting `dat -> raw` with the matching
`.transfer.list` present (and a non-empty `.new.dat`) replays the
transfer list to produce `<name>.img` and deletes the consumed
`.new.dat` and the transfer list; the optional `.patch.dat` is deleted
unconditionally in the unpack path, but in the format-conversion path
only when it is zero-length.  With the transfer list absent, both paths
report the missing sidecar and leave every input file untouched. -/
theorem datToRaw_replay_amended (s : DatState) (n : ℕ)
    (hn : s.newDatSize = some n) (h0 : n ≠ 0) :
    unpackDatStep true s =
      (if s.transferList then
        ({ newDatSize := none, transferList := false, patchDatSize := none,
           imgExists := true }, false)
      else (s, true)) ∧
    conversionDatToRawStep true s =
      (if s.transferList then
        ({ newDatSize := none, transferList := false,
           patchDatSize := if s.patchDatSize = some 0 then none else s.patchDatSize,
           imgExists := true }, false)
      else (s, true)) := by
  obtain ⟨d, t, p, m⟩ := s
  simp only at hn
  subst hn
  cases t <;> simp [unpackDatStep, conversionDatToRawStep, h0]

/-- Witness for `datToRaw_replay_amended`: `system.new.dat` of 5 bytes
with its transfer list present and a zero-length `system.patch.dat`. -/
theorem datToRaw_replay_amended_witness :
    unpackDatStep true ⟨some 5, true, some 0, false⟩ =
      (if (true : Bool) then
        ({ newDatSize := none, transferList := false, patchDatSize := none,
           imgExists := true }, false)
      else (⟨some 5, true, some 0, false⟩, true)) ∧
    conversionDatToRawStep true ⟨some 5, true, some 0, false⟩ =
      (if (true : Bool) then
        ({ newDatSize := none, transferList := false,
           patchDatSize := if (some 0 : Option ℕ) = some 0 then none
             else (some 0 : Option ℕ),
           imgExists := true }, false)
      else (⟨some 5, true, some 0, false⟩, true)) :=
  datToRaw_replay_amended ⟨some 5, true, some 0, false⟩ 5 rfl (by decide)

/-- C5, counterexample: converting `system.img` from `raw` to `dat`
first runs `img2simg` (raw to sparse) and then feeds the now-sparse
image to `img2sdat`; converting a `sparse` source feeds the sparse image
to `img2sdat` directly.  In both cases the image consumed by `img2sdat`
is sparse, not raw as the claim states. -/
theorem conversionToDat_viaSparse_counterexample :
    formatAtImg2sdat "raw" (conversionToDatOps "raw" "system.img") = some "sparse" ∧
    formatAtImg2sdat "sparse" (conversionToDatOps "sparse" "system.img") = some "sparse" ∧
    formatAtImg2sdat "raw" (conversionToDatOps "raw" "system.img") ≠ some "raw" := by
  refine ⟨by decide, by decide, by decide⟩

/-- C5, amended: every conversion whose target format is `dat` and whose
source is `raw` or `sparse` first ensures a sparse image — a `raw`
source is converted raw-to-sparse in place — and produces the `.new.dat`
from that sparse image via `img2sdat`; a dat is never derived through a
raw intermediate (`simg2img` never appears in the trace). -/
theorem conversionToDat_amended (src i p : String) (h : src = "raw" ∨ src = "sparse") :
    formatAtImg2sdat src (conversionToDatOps src i) = some "sparse" ∧
    ConvOp.img2sdat (baseName i) ∈ conversionToDatOps src i ∧
    ConvOp.simg2img p ∉ conversionToDatOps src i := by
  rcases h with h | h <;> subst h <;>
    simp [conversionToDatOps, formatAtImg2sdat, applyOp]

/-- Witness for `conversionToDat_amended`: the raw source `system.img`. -/
theorem conversionToDat_amended_witness :
    formatAtImg2sdat "raw" (conversionToDatOps "raw" "system.img") = some "sparse" ∧
    ConvOp.img2sdat (baseName "system.img") ∈ conversionToDatOps "raw" "system.img" ∧
    ConvOp.simg2img "system.img" ∉ conversionToDatOps "raw" "system.img" :=
  conversionToDat_amended "raw" "system.img" "system.img" (Or.inl rfl)

/-- C6, counterexample: a super image extracted to `system_a.img`
(5 bytes) and a non-empty `system_b.img` (7 bytes), no `system.img`.
Under the claim's condition the `_a` file must be left alone because a
`_b` counterpart exists; the code renames it to `system.img` anyway. -/
theorem superNormalize_bCounterpart_counterexample :
    superNormalize ["system_a.img", "system_b.img"]
        (fun n => if n = "system_a.img" then some 5
          else if n = "system_b.img" then some 7 else none) "system_a.img" = none ∧
    superNormalize ["system_a.img", "system_b.img"]
        (fun n => if n = "system_a.img" then some 5
          else if n = "system_b.img" then some 7 else none) "system.img" = some 5 ∧
    claimNormalize ["system_a.img", "system_b.img"]
        (fun n => if n = "system_a.img" then some 5
          else if n = "system_b.img" then some 7 else none) "system_a.img" = some 5 := by
  refine ⟨by decide, by decide, by decide⟩

theorem string_data_append : ∀ (s t : String), (s ++ t).data = s.data ++ t.data
  | ⟨_⟩, ⟨_⟩ => rfl

theorem removeAllAux_nil (pat : List Char) : ∀ f : ℕ, removeAllAux pat f [] = [] := by
  intro f
  cases f <;> rfl

theorem removeAllAux_no_pair :
    ∀ (f : ℕ) (l : List Char), containsPair '_' 'a' l = false →
      removeAllAux ['_', 'a'] f l = l := by
  intro f
  induction f with
  | zero => intro l _; rfl
  | succ f ih =>
    intro l h
    cases l with
    | nil => rfl
    | cons c l' =>
      cases l' with
      | nil =>
        have hc : (['_', 'a'] : List Char).isPrefixOf [c] = false := by
          simp [List.isPrefixOf]
        simp [removeAllAux, hc, removeAllAux_nil]
      | cons d l'' =>
        simp only [containsPair, Bool.or_eq_false_iff] at h
        have hcond : (['_', 'a'] : List Char).isPrefixOf (c :: d :: l'') = false := by
          simp only [List.isPrefixOf, Bool.and_true]
          exact h.1
        simp [removeAllAux, hcond, ih _ h.2]

theorem removeAllAux_strip :
    ∀ (f : ℕ) (l rest : List Char),
      l.length + 2 + rest.length ≤ f →
      containsPair '_' 'a' l = false →
      containsPair '_' 'a' rest = false →
      removeAllAux ['_', 'a'] f (l ++ '_' :: 'a' :: rest) = l ++ rest := by
  intro f
  induction f with
  | zero => intro l rest h _ _; omega
  | succ f ih =>
    intro l rest h hl hrest
    cases l with
    | nil =>
      have hcond : (['_', 'a'] : List Char).isPrefixOf ('_' :: 'a' :: rest) = true := by
        simp [List.isPrefixOf]
      simp only [List.nil_append]
      rw [show removeAllAux ['_', 'a'] (f + 1) ('_' :: 'a' :: rest) =
          removeAllAux ['_', 'a'] f rest from by simp [removeAllAux, hcond]]
      exact removeAllAux_no_pair f rest hrest
    | cons c l' =>
      cases l' with
      | nil =>
        have hau : ('a' == '_') = false := rfl
        have hcond : (['_', 'a'] : List Char).isPrefixOf (c :: '_' :: 'a' :: rest) = false := by
          simp [List.isPrefixOf, hau]
        simp only [List.cons_append, List.nil_append]
        rw [show removeAllAux ['_', 'a'] (f + 1) (c :: '_' :: 'a' :: rest) =
            c :: removeAllAux ['_', 'a'] f ('_' :: 'a' :: rest) from by
          simp [removeAllAux, hcond]]
        have hz := ih [] rest (by simp at h ⊢; omega) rfl hrest
        simp only [List.nil_append] at hz
        rw [hz]
      | cons d l'' =>
        simp only [containsPair, Bool.or_eq_false_iff] at hl
        have hcond : (['_', 'a'] : List Char).isPrefixOf
            (c :: (d :: l'') ++ '_' :: 'a' :: rest) = false := by
          simp only [List.cons_append, List.isPrefixOf]
          cases h1 : ('_' == c) <;> cases h2 : ('a' == d) <;> simp_all
        simp only [List.cons_append]
        have hstep : removeAllAux ['_', 'a'] (f + 1) (c :: d :: (l'' ++ '_' :: 'a' :: rest)) =
            c :: removeAllAux ['_', 'a'] f (d :: (l'' ++ '_' :: 'a' :: rest)) := by
          simp only [List.cons_append] at hcond
          simp [removeAllAux, hcond]
        rw [hstep]
        have hih := ih (d :: l'') rest (by simp at h ⊢; omega) hl.2 hrest
        simp only [List.cons_append] at hih
        rw [hih]

theorem strRemoveAll_slotA (p : String) (hp : containsPair '_' 'a' p.data = false) :
    strRemoveAll (p ++ "_a.img") "_a" = p ++ ".img" := by
  have hd : (p ++ "_a.img").data = p.data ++ '_' :: 'a' :: (".img").data := by
    rw [string_data_append]
  unfold strRemoveAll
  rw [show ("_a" : String).data = ['_', 'a'] from rfl, hd]
  rw [removeAllAux_strip _ p.data (".img").data
    (by simp only [List.length_append, List.length_cons]; omega) hp rfl]
  exact congrArg String.mk (string_data_append p ".img").symm

theorem isPrefixOf_append_self : ∀ (X Y : List Char), X.isPrefixOf (X ++ Y) = true := by
  intro X Y
  induction X with
  | nil => simp [List.isPrefixOf]
  | cons a X ih => simp [List.isPrefixOf, ih]

theorem charsSuffixOf_append_self (p suf : String) : charsSuffixOf suf (p ++ suf) = true := by
  unfold charsSuffixOf
  rw [string_data_append]
  simp only [List.isSuffixOf, List.reverse_append]
  exact isPrefixOf_append_self _ _

theorem charsSuffixOf_bTag_aTag (p : String) :
    charsSuffixOf "_b.img" (p ++ "_a.img") = false := by
  unfold charsSuffixOf
  rw [string_data_append]
  simp only [List.isSuffixOf, List.reverse_append]
  rw [show ("_b.img" : String).data.reverse = ['g', 'm', 'i', '.', 'b', '_'] from rfl,
    show ("_a.img" : String).data.reverse = ['g', 'm', 'i', '.', 'a', '_'] from rfl]
  rfl

theorem charsSuffixOf_aTag_bTag (p : String) :
    charsSuffixOf "_a.img" (p ++ "_b.img") = false := by
  unfold charsSuffixOf
  rw [string_data_append]
  simp only [List.isSuffixOf, List.reverse_append]
  rw [show ("_a.img" : String).data.reverse = ['g', 'm', 'i', '.', 'a', '_'] from rfl,
    show ("_b.img" : String).data.reverse = ['g', 'm', 'i', '.', 'b', '_'] from rfl]
  rfl

theorem slotA_ne_unsuffixed (p : String) : p ++ "_a.img" ≠ p ++ ".img" := by
  intro he
  have hlen := congrArg (fun s => s.data.length) he
  simp only [string_data_append] at hlen
  simp only [List.length_append, List.length_cons, List.length_nil] at hlen
  omega

/-- C6, amended: after unpacking a super image, for every extracted file
`<p>_a.img` — `p` any stem in which the substring `_a` does not occur,
so that the code's rename target `file_name.replace('_a', '')` is
exactly the unsuffixed name — the file is renamed to `<p>.img` exactly
when no file of that unsuffixed name exists, keeping its size and
touching no other file; when the unsuffixed file exists, nothing changes
at all.  The presence or absence of a `<p>_b.img` counterpart is never
consulted.  A file `<p>_b.img` is deleted exactly when it is
zero-length, touching no other file.  The pass visits each entry of the
directory snapshot once, in listing order (first conjunct), applying
this step to the filesystem current at that entry's turn. -/
theorem superNormalize_amended (fs : String → Option ℕ) (p : String)
    (snap1 snap2 : List String)
    (hp : containsPair '_' 'a' p.data = false) :
    superNormalize (snap1 ++ snap2) fs =
      superNormalize snap2 (superNormalize snap1 fs) ∧
    (fs (p ++ ".img") = none →
      superNormStep fs (p ++ "_a.img") (p ++ ".img") = fs (p ++ "_a.img") ∧
      superNormStep fs (p ++ "_a.img") (p ++ "_a.img") = none ∧
      ∀ n, n ≠ p ++ ".img" → n ≠ p ++ "_a.img" →
        superNormStep fs (p ++ "_a.img") n = fs n) ∧
    (fs (p ++ ".img") ≠ none → superNormStep fs (p ++ "_a.img") = fs) ∧
    (fs (p ++ "_b.img") = some 0 →
      superNormStep fs (p ++ "_b.img") (p ++ "_b.img") = none ∧
      ∀ n, n ≠ p ++ "_b.img" → superNormStep fs (p ++ "_b.img") n = fs n) ∧
    (fs (p ++ "_b.img") ≠ some 0 → superNormStep fs (p ++ "_b.img") = fs) := by
  have hA : charsSuffixOf "_a.img" (p ++ "_a.img") = true :=
    charsSuffixOf_append_self p "_a.img"
  have hAB : charsSuffixOf "_b.img" (p ++ "_a.img") = false := charsSuffixOf_bTag_aTag p
  have hBA : charsSuffixOf "_a.img" (p ++ "_b.img") = false := charsSuffixOf_aTag_bTag p
  have hB : charsSuffixOf "_b.img" (p ++ "_b.img") = true :=
    charsSuffixOf_append_self p "_b.img"
  have hT : strRemoveAll (p ++ "_a.img") "_a" = p ++ ".img" := strRemoveAll_slotA p hp
  have hne : p ++ "_a.img" ≠ p ++ ".img" := slotA_ne_unsuffixed p
  refine ⟨?_, ?_, ?_, ?_, ?_⟩
  · unfold superNormalize
    rw [List.foldl_append]
  · intro hnone
    refine ⟨?_, ?_, ?_⟩
    · simp only [superNormStep]
      rw [hT]
      simp [hA, hAB, hnone]
    · simp only [superNormStep]
      rw [hT]
      simp [hA, hAB, hnone, hne]
    · intro n hn1 hn2
      simp only [superNormStep]
      rw [hT]
      simp [hA, hAB, hnone, hn1, hn2]
  · intro hsome
    simp only [superNormStep]
    rw [hT]
    simp [hA, hAB, hsome]
  · intro h0
    refine ⟨?_, ?_⟩
    · simp only [superNormStep]
      simp [hBA, hB, h0]
    · intro n hn
      simp only [superNormStep]
      simp [hBA, hB, h0, hn]
  · intro hnot
    simp only [superNormStep]
    simp [hBA, hB, hnot]

/-- Witness for `superNormalize_amended` at the counterexample scenario:
stem `system`, a 5-byte `system_a.img`, a 7-byte `system_b.img`, no
`system.img`.  The `_a` file is renamed although a `_b` counterpart
exists, an unrelated `vendor.img` entry is untouched, and the non-empty
`_b` file is kept. -/
theorem superNormalize_amended_witness :
    superNormalize (["system_a.img"] ++ ["system_b.img"]) slotPairFs =
      superNormalize ["system_b.img"] (superNormalize ["system_a.img"] slotPairFs) ∧
    superNormStep slotPairFs ("system" ++ "_a.img") ("system" ++ ".img") =
      slotPairFs ("system" ++ "_a.img") ∧
    superNormStep slotPairFs ("system" ++ "_a.img") ("system" ++ "_a.img") = none ∧
    superNormStep slotPairFs ("system" ++ "_a.img") "vendor.img" =
      slotPairFs "vendor.img" ∧
    superNormStep slotPairFs ("system" ++ "_b.img") = slotPairFs := by
  have h := superNormalize_amended slotPairFs "system"
    ["system_a.img"] ["system_b.img"] (by decide)
  have h2 := h.2.1 (by decide)
  exact ⟨h.1, h2.1, h2.2.1, h2.2.2 "vendor.img" (by decide) (by decide),
    h.2.2.2.2 (by decide)⟩

theorem segConcat_congr {f g : ℕ → Option (List ℕ)} :
    ∀ ns : List ℕ, (∀ n ∈ ns, f n = g n) → segConcat f ns = segConcat g ns := by
  intro ns
  induction ns with
  | nil => intro _; rfl
  | cons n ns ih =>
    intro h
    simp only [segConcat, h n (List.mem_cons_self n ns)]
    rw [ih fun m hm => h m (List.mem_cons_of_mem n hm)]

theorem reassembleLoop_spec :
    ∀ (ns : List ℕ) (segs : ℕ → Option (List ℕ)) (acc : List ℕ), ns.Nodup →
      (reassembleLoop ns segs acc).1 = acc ++ segConcat segs ns ∧
      (∀ n ∈ ns, (reassembleLoop ns segs acc).2 n = none) ∧
      (∀ n, n ∉ ns → (reassembleLoop ns segs acc).2 n = segs n) := by
  intro ns
  induction ns with
  | nil => intro segs acc _; exact ⟨by simp [reassembleLoop, segConcat], by simp, fun n _ => rfl⟩
  | cons n ns ih =>
    intro segs acc hnd
    have hn : n ∉ ns := (List.nodup_cons.mp hnd).1
    have hnd' : ns.Nodup := (List.nodup_cons.mp hnd).2
    cases hseg : segs n with
    | some c =>
      have key := ih (Function.update segs n none) (acc ++ c) hnd'
      have hcongr : segConcat (Function.update segs n none) ns = segConcat segs ns :=
        segConcat_congr ns fun m hm =>
          show Function.update segs n none m = segs m from
            Function.update_noteq (ne_of_mem_of_not_mem hm hn) none segs
      constructor
      · simp only [reassembleLoop, hseg]
        rw [key.1, hcongr, segConcat, hseg]
        simp
      constructor
      · intro m hm
        simp only [reassembleLoop, hseg]
        rcases List.mem_cons.mp hm with rfl | hm'
        · by_cases hmem : m ∈ ns
          · exact key.2.1 m hmem
          · rw [key.2.2 m hmem, Function.update_same]
        · exact key.2.1 m hm'
      · intro m hm
        simp only [reassembleLoop, hseg]
        have hm1 : m ≠ n := fun he => hm (he ▸ List.mem_cons_self n ns)
        have hm2 : m ∉ ns := fun hmem => hm (List.mem_cons_of_mem n hmem)
        rw [key.2.2 m hm2, Function.update_noteq hm1]
    | none =>
      have key := ih segs acc hnd'
      constructor
      · simp only [reassembleLoop, hseg]
        rw [key.1, segConcat, hseg]
        simp
      constructor
      · intro m hm
        simp only [reassembleLoop, hseg]
        rcases List.mem_cons.mp hm with rfl | hm'
        · by_cases hmem : m ∈ ns
          · exact key.2.1 m hmem
          · rw [key.2.2 m hmem]; exact hseg
        · exact key.2.1 m hm'
      · intro m hm
        simp only [reassembleLoop, hseg]
        exact key.2.2 m fun hmem => hm (List.mem_cons_of_mem n hmem)

/-- C9: multi-part reassembly runs exactly when `<name>.new.dat.1`
exists; it appends onto `<name>.new.dat` the contents of precisely the
segments `0` to `99` in ascending index order (an index of 100 or more
is never appended and its file is untouched), and every segment below
100 is removed after the pass; when `<name>.new.dat.1` is absent,
nothing changes at all. -/
theorem reassemble_range_spec (s : SegFs) :
    (reassemble s).newDat =
      (if (s.seg 1).isSome then
        some (s.newDat.getD [] ++ segConcat s.seg (List.range 100))
      else s.newDat) ∧
    ((s.seg 1).isSome = true →
      (∀ n, n < 100 → (reassemble s).seg n = none) ∧
      (∀ n, 100 ≤ n → (reassemble s).seg n = s.seg n)) ∧
    ((s.seg 1).isSome = false → reassemble s = s) := by
  have key := reassembleLoop_spec (List.range 100) s.seg (s.newDat.getD [])
    (List.nodup_range 100)
  cases hopt : s.seg 1 with
  | none =>
    refine ⟨?_, fun htrue => ?_, fun _ => ?_⟩
    · simp [reassemble, hopt]
    · simp at htrue
    · simp [reassemble, hopt]
  | some c =>
    refine ⟨?_, fun _ => ⟨fun n hn => ?_, fun n hn => ?_⟩, fun hfalse => ?_⟩
    · simp only [reassemble, hopt, Option.isSome_some, if_true]
      rw [key.1]
    · simp only [reassemble, hopt, Option.isSome_some, if_true]
      exact key.2.1 n (List.mem_range.mpr hn)
    · simp only [reassemble, hopt, Option.isSome_some, if_true]
      exact key.2.2 n (by simp [List.mem_range]; omega)
    · simp at hfalse

set_option maxRecDepth 8000 in
/-- Witness for `reassemble_range_spec`: segments `0`, `1` and `100`
present; the pass appends segments 0 and 1 (not 100), removes them, and
leaves segment 100 alone. -/
theorem reassemble_range_spec_witness :
    (reassemble
        ⟨some [9], fun n => if n = 0 then some [1] else if n = 1 then some [2]
          else if n = 100 then some [3] else none⟩).newDat = some [9, 1, 2] ∧
    (reassemble
        ⟨some [9], fun n => if n = 0 then some [1] else if n = 1 then some [2]
          else if n = 100 then some [3] else none⟩).seg 1 = none ∧
    (reassemble
        ⟨some [9], fun n => if n = 0 then some [1] else if n = 1 then some [2]
          else if n = 100 then some [3] else none⟩).seg 100 = some [3] := by
  have key := reassemble_range_spec
    ⟨some [9], fun n => if n = 0 then some [1] else if n = 1 then some [2]
      else if n = 100 then some [3] else none⟩
  refine ⟨?_, ?_, ?_⟩
  · rw [key.1]; decide
  · exact (key.2.1 rfl).1 1 (by decide)
  · exact (key.2.1 rfl).2 100 (by decide)

theorem unpackStep_processed (env : String → PartEnv) (i : String) (r : BatchResult) :
    (unpackStep env i r).processed = r.processed ++ [i] := by
  simp only [unpackStep]
  split
  · split
    · rfl
    · split <;> rfl
  · rfl

theorem unpackStep_reported_mono (env : String → PartEnv) (i : String)
    (r : BatchResult) (x : String) (hx : x ∈ r.reported) :
    x ∈ (unpackStep env i r).reported := by
  simp only [unpackStep]
  split
  · split
    · exact List.mem_append_left _ hx
    · split <;> exact hx
  · exact hx

theorem unpackStep_notRemoved (env : String → PartEnv) (i : String)
    (r : BatchResult) (x : String) (hx : x ∉ r.removedImgs)
    (hexit : (env x).extractExit ≠ 0) :
    x ∉ (unpackStep env i r).removedImgs := by
  simp only [unpackStep]
  split
  · split
    · exact hx
    · split
      · intro hmem
        rcases List.mem_append.mp hmem with h | h
        · exact hx h
        · rcases List.mem_singleton.mp h with rfl
          rename_i hzero _
          exact hzero (by simpa using hexit)
      · exact hx
  · exact hx

theorem unpackStep_registry_insert (env : String → PartEnv) (i : String)
    (r : BatchResult) (himg : (env i).hasImg = true) :
    (i, (env i).ftype) ∈ (unpackStep env i r).registry := by
  have hreg : (i, (env i).ftype) ∈
      ((r.registry.filter fun kv => kv.1 ≠ i) ++ [(i, (env i).ftype)]) :=
    List.mem_append_right _ (List.mem_singleton.mpr rfl)
  simp only [unpackStep]
  split
  · split
    · exact hreg
    · split <;> exact hreg
  · exact hreg

theorem unpackStep_registry_preserve (env : String → PartEnv) (j : String)
    (r : BatchResult) (x : String) (hx : (x, (env x).ftype) ∈ r.registry) :
    (x, (env x).ftype) ∈ (unpackStep env j r).registry := by
  have hreg : (x, (env x).ftype) ∈
      (if (env j).hasImg = true then
        (r.registry.filter fun kv => kv.1 ≠ j) ++ [(j, (env j).ftype)]
      else r.registry) := by
    split
    · by_cases hxj : x = j
      · subst hxj
        exact List.mem_append_right _ (List.mem_singleton.mpr rfl)
      · exact List.mem_append_left _ (List.mem_filter.mpr ⟨hx, by simpa using hxj⟩)
    · exact hx
  simp only [unpackStep]
  split
  · split
    · exact hreg
    · split <;> exact hreg
  · exact hreg

theorem unpackStep_reported_insert (env : String → PartEnv) (i : String)
    (r : BatchResult) (hft : (env i).ftype = "erofs" ∨ (env i).ftype = "f2fs")
    (himg : (env i).hasImg = true) (hexit : (env i).extractExit ≠ 0) :
    i ∈ (unpackStep env i r).reported := by
  simp only [unpackStep]
  rw [if_pos ⟨hft, himg⟩, if_pos hexit]
  exact List.mem_append_right _ (List.mem_singleton.mpr rfl)

theorem unpackBatch_processed (env : String → PartEnv) :
    ∀ (rest : List String) (r : BatchResult),
      (∀ j ∈ rest, (env j).hasZst = false) →
      (unpackBatch env rest r).processed = r.processed ++ rest := by
  intro rest
  induction rest with
  | nil => intro r _; simp [unpackBatch]
  | cons i rest ih =>
    intro r h
    have hi : (env i).hasZst = false := h i (List.mem_cons_self i rest)
    rw [unpackBatch, if_neg (by simp [hi]),
      ih _ (fun j hj => h j (List.mem_cons_of_mem i hj)), unpackStep_processed]
    simp

theorem unpackBatch_reported_mono (env : String → PartEnv) :
    ∀ (rest : List String) (r : BatchResult) (x : String),
      x ∈ r.reported → x ∈ (unpackBatch env rest r).reported := by
  intro rest
  induction rest with
  | nil => intro r x hx; exact hx
  | cons i rest ih =>
    intro r x hx
    rw [unpackBatch]
    split
    · exact hx
    · exact ih _ x (unpackStep_reported_mono env i r x hx)

theorem unpackBatch_notRemoved (env : String → PartEnv) :
    ∀ (rest : List String) (r : BatchResult) (x : String),
      x ∉ r.removedImgs → (env x).extractExit ≠ 0 →
      x ∉ (unpackBatch env rest r).removedImgs := by
  intro rest
  induction rest with
  | nil => intro r x hx _; exact hx
  | cons i rest ih =>
    intro r x hx hexit
    rw [unpackBatch]
    split
    · exact hx
    · exact ih _ x (unpackStep_notRemoved env i r x hx hexit) hexit

theorem unpackBatch_registry_preserve (env : String → PartEnv) :
    ∀ (rest : List String) (r : BatchResult) (x : String),
      (x, (env x).ftype) ∈ r.registry →
      (x, (env x).ftype) ∈ (unpackBatch env rest r).registry := by
  intro rest
  induction rest with
  | nil => intro r x hx; exact hx
  | cons i rest ih =>
    intro r x hx
    rw [unpackBatch]
    split
    · exact hx
    · exact ih _ x (unpackStep_registry_preserve env i r x hx)

theorem unpackBatch_registry_insert (env : String → PartEnv) :
    ∀ (chose : List String) (r : BatchResult) (i : String),
      (∀ j ∈ chose, (env j).hasZst = false) → i ∈ chose →
      (env i).hasImg = true →
      (i, (env i).ftype) ∈ (unpackBatch env chose r).registry := by
  intro chose
  induction chose with
  | nil => intro r i _ hmem; cases hmem
  | cons j rest ih =>
    intro r i hz hmem himg
    have hj : (env j).hasZst = false := hz j (List.mem_cons_self j rest)
    rw [unpackBatch, if_neg (by simp [hj])]
    rcases List.mem_cons.mp hmem with rfl | hmem'
    · exact unpackBatch_registry_preserve env rest _ i
        (unpackStep_registry_insert env i r himg)
    · exact ih _ i (fun m hm => hz m (List.mem_cons_of_mem j hm)) hmem' himg

theorem unpackBatch_reported_insert (env : String → PartEnv) :
    ∀ (chose : List String) (r : BatchResult) (i : String),
      (∀ j ∈ chose, (env j).hasZst = false) → i ∈ chose →
      ((env i).ftype = "erofs" ∨ (env i).ftype = "f2fs") →
      (env i).hasImg = true → (env i).extractExit ≠ 0 →
      i ∈ (unpackBatch env chose r).reported := by
  intro chose
  induction chose with
  | nil => intro r i _ hmem _ _ _; cases hmem
  | cons j rest ih =>
    intro r i hz hmem hft himg hexit
    have hj : (env j).hasZst = false := hz j (List.mem_cons_self j rest)
    rw [unpackBatch, if_neg (by simp [hj])]
    rcases List.mem_cons.mp hmem with rfl | hmem'
    · exact unpackBatch_reported_mono env rest _ i
        (unpackStep_reported_insert env i r hft himg hexit)
    · exact ih _ i (fun m hm => hz m (List.mem_cons_of_mem j hm)) hmem' hft himg hexit

/-- C7, counterexample: with the middle partition's backing tool (`zstd`)
exiting non-zero, the batch returns immediately after that partition:
the third partition is never processed and never recorded, so a
per-partition tool failure does abort the batch on the `.zst` path. -/
theorem unpackBatch_zst_abort_counterexample :
    unpackBatch envZstMid ["p1", "p2", "p3"] ⟨[], [], [], []⟩ =
      ⟨[("p1", "ext")], [], ["p1", "p2"], []⟩ ∧
    "p3" ∉ (unpackBatch envZstMid ["p1", "p2", "p3"] ⟨[], [], [], []⟩).processed ∧
    (envZstMid "p2").zstdExit ≠ 0 := by
  refine ⟨by decide, by decide, by decide⟩

/-- C7, amended: in a multi-partition unpack batch in which no selected
partition carries a `.zst` sidecar, every partition of the selection is
processed; every partition with a classified raw image is recorded in
the registry under its classified type; and a partition whose
`erofs`/`f2fs` extraction tool exits non-zero is reported as failed
while its image artifact is kept on disk — such a failure skips only
that partition.  (A partition with a `.zst` sidecar instead ends the
batch immediately after being handled, whatever the `zstd` exit status:
see the counterexample.) -/
theorem unpackBatch_amended (env : String → PartEnv) (chose : List String)
    (parts0 : List (String × String))
    (hzst : ∀ i ∈ chose, (env i).hasZst = false) :
    (unpackBatch env chose ⟨parts0, [], [], []⟩).processed = chose ∧
    (∀ i ∈ chose, (env i).hasImg = true →
      (i, (env i).ftype) ∈ (unpackBatch env chose ⟨parts0, [], [], []⟩).registry) ∧
    (∀ i ∈ chose, ((env i).ftype = "erofs" ∨ (env i).ftype = "f2fs") →
      (env i).hasImg = true → (env i).extractExit ≠ 0 →
      i ∈ (unpackBatch env chose ⟨parts0, [], [], []⟩).reported ∧
      i ∉ (unpackBatch env chose ⟨parts0, [], [], []⟩).removedImgs) := by
  refine ⟨?_, ?_, ?_⟩
  · rw [unpackBatch_processed env chose _ hzst]
    rfl
  · intro i hmem himg
    exact unpackBatch_registry_insert env chose _ i hzst hmem himg
  · intro i hmem hft himg hexit
    exact ⟨unpackBatch_reported_insert env chose _ i hzst hmem hft himg hexit,
      unpackBatch_notRemoved env chose _ i (by simp) hexit⟩

/-- Witness for `unpackBatch_amended`: all three partitions are
processed, the failing middle partition is recorded and reported and its
image kept. -/
theorem unpackBatch_amended_witness :
    (unpackBatch envMidFail ["q1", "q2", "q3"] ⟨[], [], [], []⟩).processed =
      ["q1", "q2", "q3"] ∧
    ("q2", "erofs") ∈ (unpackBatch envMidFail ["q1", "q2", "q3"] ⟨[], [], [], []⟩).registry ∧
    ("q3", "ext") ∈ (unpackBatch envMidFail ["q1", "q2", "q3"] ⟨[], [], [], []⟩).registry ∧
    "q2" ∈ (unpackBatch envMidFail ["q1", "q2", "q3"] ⟨[], [], [], []⟩).reported ∧
    "q2" ∉ (unpackBatch envMidFail ["q1", "q2", "q3"] ⟨[], [], [], []⟩).removedImgs := by
  have h := unpackBatch_amended envMidFail ["q1", "q2", "q3"] []
    (by intro i hi; fin_cases hi <;> rfl)
  have h2 := h.2.2 "q2" (by decide) (by left; decide) (by decide) (by decide)
  exact ⟨h.1, h.2.1 "q2" (by decide) (by decide),
    h.2.1 "q3" (by decide) (by decide), h2.1, h2.2⟩

theorem isPrefixOf_length_le :
    ∀ (P l : List Char), P.isPrefixOf l = true → P.length ≤ l.length
  | [], _, _ => Nat.zero_le _
  | a :: P', [], h => by simp [List.isPrefixOf] at h
  | a :: P', b :: l', h => by
    simp only [List.isPrefixOf, Bool.and_eq_true] at h
    simpa using Nat.succ_le_succ (isPrefixOf_length_le P' l' h.2)

theorem reSubNumAux_fuel (p : Char) (ps R : List Char) :
    ∀ (f1 : ℕ) (l : List Char) (f2 : ℕ), l.length ≤ f1 → l.length ≤ f2 →
      reSubNumAux p ps R f1 l = reSubNumAux p ps R f2 l := by
  intro f1
  induction f1 with
  | zero =>
    intro l f2 h1 _
    have hl : l = [] := List.eq_nil_of_length_eq_zero (Nat.le_zero.mp h1)
    subst hl
    cases f2 <;> rfl
  | succ f ih =>
    intro l f2 h1 h2
    cases l with
    | nil => cases f2 <;> rfl
    | cons c rest =>
      cases f2 with
      | zero => simp at h2
      | succ g =>
        have hr1 : rest.length ≤ f := by simp at h1; omega
        have hr2 : rest.length ≤ g := by simp at h2; omega
        have hd : ((rest.drop ps.length).dropWhile Char.isDigit).length ≤ rest.length := by
          calc ((rest.drop ps.length).dropWhile Char.isDigit).length
              ≤ (rest.drop ps.length).length := (List.dropWhile_suffix _).length_le
            _ ≤ rest.length := by rw [List.length_drop]; omega
        simp only [reSubNumAux]
        split
        · rw [ih _ g (le_trans hd hr1) (le_trans hd hr2)]
        · rw [ih rest g hr1 hr2]

theorem reSubNumAux_of_not_match (p : Char) (ps R : List Char) :
    ∀ (f : ℕ) (l : List Char), hasNumMatch p ps l = false →
      reSubNumAux p ps R f l = l := by
  intro f
  induction f with
  | zero => intro l _; rfl
  | succ f ih =>
    intro l h
    cases l with
    | nil => rfl
    | cons c rest =>
      simp only [hasNumMatch, Bool.or_eq_false_iff] at h
      simp [reSubNumAux, h.1, ih rest h.2]

theorem reSubNum_of_not_match (p : Char) (ps R : List Char) (l : List Char)
    (h : hasNumMatch p ps l = false) : reSubNum p ps R l = l :=
  reSubNumAux_of_not_match p ps R l.length l h

theorem numCond_append_newline (P : List Char) (hp : '\n' ∉ P) :
    ∀ (X Y : List Char),
      (P.isPrefixOf (X ++ '\n' :: Y) && headIsDigit ((X ++ '\n' :: Y).drop P.length)) =
        (P.isPrefixOf X && headIsDigit (X.drop P.length)) := by
  induction P with
  | nil =>
    intro X Y
    cases X with
    | nil => simp [List.isPrefixOf, headIsDigit]
    | cons x X' => simp [List.isPrefixOf, headIsDigit]
  | cons a P' ih =>
    intro X Y
    have ha : a ≠ '\n' := by
      intro he
      exact hp (he ▸ List.mem_cons_self a P')
    have hP' : '\n' ∉ P' := fun hm => hp (List.mem_cons_of_mem a hm)
    cases X with
    | nil =>
      have hab : (a == '\n') = false := beq_eq_false_iff_ne.mpr ha
      simp [List.isPrefixOf, hab]
    | cons x X' =>
      simp only [List.cons_append, List.append_eq, List.isPrefixOf, List.length_cons,
        List.drop_succ_cons, Bool.and_assoc]
      rw [ih hP' X' Y]

theorem dropWhile_append_stop (f : Char → Bool) (b : Char) (hb : f b = false) :
    ∀ (A C : List Char), (A ++ b :: C).dropWhile f = A.dropWhile f ++ b :: C := by
  intro A C
  induction A with
  | nil => simp [List.dropWhile, hb]
  | cons a A' ih =>
    simp only [List.cons_append, List.dropWhile]
    cases hfa : f a with
    | true => simpa [hfa] using ih
    | false => simp [hfa]

theorem reSubNumAux_split (p : Char) (ps R : List Char) (hp : '\n' ∉ p :: ps) :
    ∀ (f : ℕ) (X Y : List Char), X.length + Y.length + 1 ≤ f →
      reSubNumAux p ps R f (X ++ '\n' :: Y) =
        reSubNumAux p ps R X.length X ++ '\n' :: reSubNumAux p ps R Y.length Y := by
  intro f
  induction f with
  | zero => intro X Y h; omega
  | succ f ih =>
    intro X Y h
    cases X with
    | nil =>
      have hpn : (p == '\n') = false :=
        beq_eq_false_iff_ne.mpr fun he => hp (he ▸ List.mem_cons_self p ps)
      have hcond : ((p :: ps).isPrefixOf ('\n' :: Y) &&
          headIsDigit (Y.drop ps.length)) = false := by
        simp [List.isPrefixOf, hpn]
      have hY : Y.length ≤ f := by simp at h; omega
      simp only [List.nil_append]
      rw [show reSubNumAux p ps R (f + 1) ('\n' :: Y) =
          '\n' :: reSubNumAux p ps R f Y from by simp [reSubNumAux, hcond]]
      rw [reSubNumAux_fuel p ps R f Y Y.length hY (le_refl _)]
      rfl
    | cons c X' =>
      have hcond := numCond_append_newline (p :: ps) hp (c :: X') Y
      simp only [List.cons_append, List.append_eq, List.length_cons,
        List.drop_succ_cons] at hcond
      by_cases hm : ((p :: ps).isPrefixOf (c :: X') &&
          headIsDigit (X'.drop ps.length)) = true
      · have hpre : (p :: ps).isPrefixOf (c :: X') = true := by
          have h2 := hm
          simp only [Bool.and_eq_true] at h2
          exact h2.1
        have hplen : ps.length ≤ X'.length := by
          have := isPrefixOf_length_le (p :: ps) (c :: X') hpre
          simp at this
          omega
        have hdw : ((X' ++ '\n' :: Y).drop ps.length).dropWhile Char.isDigit =
            (X'.drop ps.length).dropWhile Char.isDigit ++ '\n' :: Y := by
          rw [List.drop_append_of_le_length hplen,
            dropWhile_append_stop Char.isDigit '\n' (by decide)]
        have hDlen : ((X'.drop ps.length).dropWhile Char.isDigit).length ≤ X'.length :=
          le_trans (List.dropWhile_suffix _).length_le
            (by rw [List.length_drop]; omega)
        have hbound : ((X'.drop ps.length).dropWhile Char.isDigit).length +
            Y.length + 1 ≤ f := by
          simp at h
          omega
        rw [List.cons_append]
        rw [show reSubNumAux p ps R (f + 1) (c :: (X' ++ '\n' :: Y)) =
            p :: ps ++ R ++ reSubNumAux p ps R f
              (((X' ++ '\n' :: Y).drop ps.length).dropWhile Char.isDigit) from by
          simp [reSubNumAux, hcond.trans hm]]
        rw [hdw, ih _ Y hbound]
        rw [show reSubNumAux p ps R (List.length (c :: X')) (c :: X') =
            p :: ps ++ R ++ reSubNumAux p ps R X'.length
              ((X'.drop ps.length).dropWhile Char.isDigit) from by
          simp [reSubNumAux, hm]]
        rw [reSubNumAux_fuel p ps R X'.length
          ((X'.drop ps.length).dropWhile Char.isDigit) _ hDlen (le_refl _)]
        simp [List.append_assoc]
      · have hmf : ((p :: ps).isPrefixOf (c :: X') &&
            headIsDigit (X'.drop ps.length)) = false := by
          revert hm
          cases ((p :: ps).isPrefixOf (c :: X') && headIsDigit (X'.drop ps.length)) <;> simp
        rw [List.cons_append]
        rw [show reSubNumAux p ps R (f + 1) (c :: (X' ++ '\n' :: Y)) =
            c :: reSubNumAux p ps R f (X' ++ '\n' :: Y) from by
          simp [reSubNumAux, hcond.trans hmf]]
        rw [ih X' Y (by simp at h; omega)]
        rw [show reSubNumAux p ps R (List.length (c :: X')) (c :: X') =
            c :: reSubNumAux p ps R X'.length X' from by simp [reSubNumAux, hmf]]
        rfl

theorem reSubNum_split (p : Char) (ps R : List Char) (hp : '\n' ∉ p :: ps)
    (X Y : List Char) :
    reSubNum p ps R (X ++ '\n' :: Y) =
      reSubNum p ps R X ++ '\n' :: reSubNum p ps R Y := by
  unfold reSubNum
  rw [reSubNumAux_split p ps R hp (X ++ '\n' :: Y).length X Y (by simp; omega)]

theorem reSubNum_mid_split (p : Char) (ps R : List Char) (hp : '\n' ∉ p :: ps)
    (A mid B : List Char) (hmid : hasNumMatch p ps mid = false) :
    reSubNum p ps R (A ++ '\n' :: (mid ++ '\n' :: B)) =
      reSubNum p ps R A ++ '\n' :: (mid ++ '\n' :: reSubNum p ps R B) := by
  rw [reSubNum_split p ps R hp A (mid ++ '\n' :: B),
    reSubNum_split p ps R hp mid B, reSubNum_of_not_match p ps R mid hmid]

theorem newline_notMem_pat (c : Char) (s1 s2 part : String)
    (hc : c ≠ '\n') (h1 : '\n' ∉ s1.data) (h2 : '\n' ∉ s2.data)
    (hpart : '\n' ∉ part.data) :
    '\n' ∉ c :: (s1 ++ part ++ s2).data := by
  intro hmem
  rw [string_data_append, string_data_append] at hmem
  rcases List.mem_cons.mp hmem with he | hm
  · exact hc he.symm
  · rcases List.mem_append.mp hm with hm1 | hm2
    · rcases List.mem_append.mp hm1 with hm3 | hm4
      · exact h1 hm3
      · exact hpart hm4
    · exact h2 hm2

/-- C8: in patch-resize-list mode, a line that contains none of the four
patterns `resize <part> <N>`, `resize <part>_a <N>`,
`# Grow partition <part> from 0 to <N>`,
`# Grow partition <part>_a from 0 to <N>` for the named partition is
left byte-identical by the rewrite, wherever it sits in the file: alone,
as first line, as last line, or between two newlines; and a line that is
such a pattern is rewritten to carry the new size (final conjunct, at a
concrete input). -/
theorem rsizelist_frame (part : String) (size : ℕ) (A mid B : List Char)
    (hpart : '\n' ∉ part.data)
    (h1 : hasNumMatch 'r' ("esize " ++ part ++ " ").data mid = false)
    (h2 : hasNumMatch 'r' ("esize " ++ part ++ "_a ").data mid = false)
    (h3 : hasNumMatch '#' (" Grow partition " ++ part ++ " from 0 to ").data mid = false)
    (h4 : hasNumMatch '#' (" Grow partition " ++ part ++ "_a from 0 to ").data mid = false) :
    rsizelist part size mid = mid ∧
    rsizelist part size (mid ++ '\n' :: B) = mid ++ '\n' :: rsizelist part size B ∧
    rsizelist part size (A ++ '\n' :: mid) = rsizelist part size A ++ '\n' :: mid ∧
    rsizelist part size (A ++ '\n' :: (mid ++ '\n' :: B)) =
      rsizelist part size A ++ '\n' :: (mid ++ '\n' :: rsizelist part size B) ∧
    rsizelist "system" 4096 ("resize system 123").data =
      ("resize system 4096").data := by
  have hnp1 : '\n' ∉ 'r' :: ("esize " ++ part ++ " ").data :=
    newline_notMem_pat 'r' "esize " " " part (by decide) (by decide) (by decide) hpart
  have hnp2 : '\n' ∉ 'r' :: ("esize " ++ part ++ "_a ").data :=
    newline_notMem_pat 'r' "esize " "_a " part (by decide) (by decide) (by decide) hpart
  have hnp3 : '\n' ∉ '#' :: (" Grow partition " ++ part ++ " from 0 to ").data :=
    newline_notMem_pat '#' " Grow partition " " from 0 to " part
      (by decide) (by decide) (by decide) hpart
  have hnp4 : '\n' ∉ '#' :: (" Grow partition " ++ part ++ "_a from 0 to ").data :=
    newline_notMem_pat '#' " Grow partition " "_a from 0 to " part
      (by decide) (by decide) (by decide) hpart
  refine ⟨?_, ?_, ?_, ?_, by decide⟩
  · simp only [rsizelist]
    rw [reSubNum_of_not_match _ _ _ _ h1, reSubNum_of_not_match _ _ _ _ h2,
      reSubNum_of_not_match _ _ _ _ h3, reSubNum_of_not_match _ _ _ _ h4]
  · simp only [rsizelist]
    rw [reSubNum_split _ _ _ hnp1 mid B, reSubNum_of_not_match _ _ _ _ h1,
      reSubNum_split _ _ _ hnp2 mid _, reSubNum_of_not_match _ _ _ _ h2,
      reSubNum_split _ _ _ hnp3 mid _, reSubNum_of_not_match _ _ _ _ h3,
      reSubNum_split _ _ _ hnp4 mid _, reSubNum_of_not_match _ _ _ _ h4]
  · simp only [rsizelist]
    rw [reSubNum_split _ _ _ hnp1 A mid, reSubNum_of_not_match _ _ _ _ h1,
      reSubNum_split _ _ _ hnp2 _ mid, reSubNum_of_not_match _ _ _ _ h2,
      reSubNum_split _ _ _ hnp3 _ mid, reSubNum_of_not_match _ _ _ _ h3,
      reSubNum_split _ _ _ hnp4 _ mid, reSubNum_of_not_match _ _ _ _ h4]
  · simp only [rsizelist]
    rw [reSubNum_mid_split _ _ _ hnp1 A mid B h1,
      reSubNum_mid_split _ _ _ hnp2 _ mid _ h2,
      reSubNum_mid_split _ _ _ hnp3 _ mid _ h3,
      reSubNum_mid_split _ _ _ hnp4 _ mid _ h4]

/-- Witness for `rsizelist_frame`: partition `system`, new size 4096, a
`resize system` line before and a `# end` comment after a `resize
vendor` line, which matches none of the four patterns and survives
byte-identically. -/
theorem rsizelist_frame_witness :
    rsizelist "system" 4096 ("resize vendor 123").data = ("resize vendor 123").data ∧
    rsizelist "system" 4096 (("resize vendor 123").data ++ '\n' :: ("# end").data) =
      ("resize vendor 123").data ++ '\n' :: rsizelist "system" 4096 ("# end").data ∧
    rsizelist "system" 4096
        (("resize system 555").data ++ '\n' :: ("resize vendor 123").data) =
      rsizelist "system" 4096 ("resize system 555").data ++ '\n' ::
        ("resize vendor 123").data ∧
    rsizelist "system" 4096
        (("resize system 555").data ++ '\n' ::
          (("resize vendor 123").data ++ '\n' :: ("# end").data)) =
      rsizelist "system" 4096 ("resize system 555").data ++ '\n' ::
        (("resize vendor 123").data ++ '\n' ::
          rsizelist "system" 4096 ("# end").data) ∧
    rsizelist "system" 4096 ("resize system 123").data =
      ("resize system 4096").data :=
  rsizelist_frame "system" 4096 ("resize system 555").data
    ("resize vendor 123").data ("# end").data
    (by decide) (by decide) (by decide) (by decide) (by decide)

end MioKitchen
